import Mathlib

/-!
# Verification of the HybridRAG hybrid search engine

Shallow embedding of `app/search/hybrid_search.py` (class `HybridSearch`):
score normalization, keyword (lexical) scoring with pdf/sample term
expansion, weighted fusion, heuristic reranking and top-k truncation.
Scores are modelled as rationals; Python dict/set behaviour is modelled
with lists (the keyword-score dict is keyed by candidate identity and is
read back positionally by `_combine_results`, so an order-aligned list of
scores is observationally equivalent).
-/

namespace HybridRAG

/-! ## Python string primitives used by the engine -/

/-- Non-overlapping substring count, `str.count` for a nonempty pattern:
scans left to right, skipping past each match.  Fueled by the length of
the scanned list (each step consumes at least one character). -/
def pyCountAux (pat : List Char) : Nat → List Char → Nat
  | 0, _ => 0
  | _ + 1, [] => 0
  | fuel + 1, c :: rest =>
      if pat.isPrefixOf (c :: rest) then
        1 + pyCountAux pat fuel ((c :: rest).drop pat.length)
      else
        pyCountAux pat fuel rest

/-- Python `s.count(pat)`.  The engine only ever counts nonempty patterns;
the empty-pattern case follows CPython (`len(s) + 1`). -/
def pyCount (s pat : String) : Nat :=
  if pat.isEmpty then s.length + 1 else pyCountAux pat.data s.length s.data

/-- Python `pat in s` (substring containment). -/
def containsSub (s pat : String) : Bool :=
  s.data.tails.any (fun t => pat.data.isPrefixOf t)

/-- Python `s.find(pat)`: 0-based character offset of the first
occurrence, `none` standing for the Python result `-1`. -/
def pyFindAux (pat : List Char) : List Char → Nat → Option Nat
  | [], i => if pat.isEmpty then some i else none
  | c :: rest, i =>
      if pat.isPrefixOf (c :: rest) then some i else pyFindAux pat rest (i + 1)

/-- Python `s.find(pat)` as an `Option`. -/
def pyFind (s pat : String) : Option Nat :=
  pyFindAux pat.data s.data 0

/-- Python `s.replace(pat, rep)` for a nonempty `pat`: non-overlapping
left-to-right replacement, fueled by the length of `s`. -/
def pyReplaceAux (pat rep : List Char) : Nat → List Char → List Char
  | 0, s => s
  | _ + 1, [] => []
  | fuel + 1, c :: rest =>
      if pat.isPrefixOf (c :: rest) then
        rep ++ pyReplaceAux pat rep fuel ((c :: rest).drop pat.length)
      else
        c :: pyReplaceAux pat rep fuel rest

/-- Python `s.replace(pat, rep)` (the engine only replaces `".pdf"`,
which is nonempty; the empty-pattern case keeps `s`). -/
def pyReplace (s pat rep : String) : String :=
  if pat.isEmpty then s else ⟨pyReplaceAux pat.data rep.data s.length s.data⟩

/-- Python `s.lower()` (ASCII case mapping). -/
def pyLower (s : String) : String :=
  ⟨s.data.map Char.toLower⟩

/-- Python `s.strip()`: drop leading and trailing whitespace. -/
def pyStrip (s : String) : String :=
  ⟨((s.data.dropWhile Char.isWhitespace).reverse.dropWhile Char.isWhitespace).reverse⟩

/-- Worker for Python `s.split()`: the second argument accumulates the
current token in reverse. -/
def pySplitWsAux : List Char → List Char → List String
  | [], acc => if acc.isEmpty then [] else [⟨acc.reverse⟩]
  | c :: rest, acc =>
      if c.isWhitespace then
        if acc.isEmpty then pySplitWsAux rest []
        else ⟨acc.reverse⟩ :: pySplitWsAux rest []
      else pySplitWsAux rest (c :: acc)

/-- Python `s.split()`: split on whitespace runs, no empty pieces. -/
def pySplitWs (s : String) : List String :=
  pySplitWsAux s.data []

/-! ## The regex `([\w\-]+\.pdf)` of `_keyword_search`

The character class is `[\w\-]` (ASCII word characters or hyphen).  Since
`.` is not in the class, the greedy `+` never backtracks usefully: a match
starting at a position is exactly the maximal class-run there (length ≥ 1)
followed by the literal `".pdf"`.  `re.findall` takes non-overlapping
matches left to right. -/

/-- Membership in the regex class `[\w\-]`. -/
def isWordClass (c : Char) : Bool :=
  c.isAlphanum || c = '_' || c = '-'

/-- Length of the maximal `[\w\-]` run at the head of the list. -/
def wordRun : List Char → Nat
  | [] => 0
  | c :: rest => if isWordClass c then 1 + wordRun rest else 0

/-- Scanner for `re.findall` with pattern `([\w\-]+\.pdf)`, fueled by the length
of `s` (each step consumes at least one character). -/
def pdfScanAux : Nat → List Char → List (List Char)
  | 0, _ => []
  | _ + 1, [] => []
  | fuel + 1, c :: rest =>
      let s := c :: rest
      let L := wordRun s
      if L > 0 && ".pdf".data.isPrefixOf (s.drop L) then
        s.take (L + 4) :: pdfScanAux fuel (s.drop (L + 4))
      else
        pdfScanAux fuel rest

/-- `re.findall` with pattern `([\w\-]+\.pdf)` as a list of matched strings. -/
def pdfFindAll (s : String) : List String :=
  (pdfScanAux s.length s.data).map (fun l => ⟨l⟩)

/-! ## Data model

`SearchResult` carries the chunk content, the chunk metadata fields the
engine reads (`file_name`, `url` as strings; `site_common` and
`navigation_links` only through their truthiness), the raw similarity
`score`, and the three entries the engine writes into `result.metadata`
(`semantic_score`, `combined_score`, `keyword_score`), absent = `none`. -/

structure ChunkMeta where
  file_name : Option String
  url : Option String
  site_common : Bool
  navigation_links : Bool
deriving DecidableEq, Repr

structure SearchResult where
  content : String
  meta : ChunkMeta
  score : ℚ
  semantic_score : Option ℚ := none
  combined_score : Option ℚ := none
  keyword_score : Option ℚ := none
deriving DecidableEq, Repr

structure HybridSearchConfig where
  semantic_weight : ℚ
  keyword_weight : ℚ
  top_k : Nat
  rerank : Bool
deriving DecidableEq, Repr

/-- Python truthiness of `metadata.get(key)` for a string field:
present and nonempty. -/
def optTruthy : Option String → Bool
  | none => false
  | some s => s ≠ ""

/-! ## Score normalization (`search`, lines 25–32) -/

/-- `max(r.score for r in semantic_results)` (0 on the empty pool, where
the code never evaluates it). -/
def poolMax : List ℚ → ℚ
  | [] => 0
  | s :: rest => rest.foldl max s

/-- `min(r.score for r in semantic_results)`. -/
def poolMin : List ℚ → ℚ
  | [] => 0
  | s :: rest => rest.foldl min s

/-- `score_range = max_score - min_score if max_score != min_score else 1.0`. -/
def scoreRange (scores : List ℚ) : ℚ :=
  if poolMax scores ≠ poolMin scores then poolMax scores - poolMin scores else 1

/-- The normalization loop of `search` viewed on the score list:
`(score - min_score) / score_range` per element; empty pool untouched. -/
def normalizeScores (scores : List ℚ) : List ℚ :=
  match scores with
  | [] => []
  | _ :: _ => scores.map (fun x => (x - poolMin scores) / scoreRange scores)

/-- The same loop on the results: writes
`result.metadata["semantic_score"]` for every pool element. -/
def applySemanticNormalization (pool : List SearchResult) : List SearchResult :=
  match pool with
  | [] => []
  | _ :: _ =>
      let scores := pool.map (fun r => r.score)
      pool.map (fun r =>
        { r with semantic_score := some ((r.score - poolMin scores) / scoreRange scores) })

/-! ## Keyword (lexical) search (`_keyword_search`, lines 42–110) -/

/-- `query.lower().strip()`. -/
def queryLower (q : String) : String :=
  pyStrip (pyLower q)

/-- `[term.strip() for term in query_lower.split() if len(term.strip()) > 1]`
(`split()` yields no whitespace, so the inner `strip` is the identity). -/
def tokensOf (q : String) : List String :=
  (pySplitWs (queryLower q)).filter (fun t => t.length > 1)

/-- Python `set.add`, on an insertion-ordered duplicate-free list. -/
def setAdd (l : List String) (x : String) : List String :=
  if x ∈ l then l else l ++ [x]

/-- Python `set(list)`. -/
def setOfList (l : List String) : List String :=
  l.foldl setAdd []

/-- The pdf names one candidate contributes to the expansion:
`for pdf_ref in re.findall(...)[:3]`, stripped of `".pdf"`, kept when
longer than 3 characters. -/
def pdfStemsOf (r : SearchResult) : List String :=
  (((pdfFindAll (pyLower r.content)).take 3).map (fun ref => pyReplace ref ".pdf" "")).filter
    (fun nm => nm.length > 3)

/-- The expansion block of `_keyword_search` (lines 57–72): starts from
`set(query_terms)`; when `"pdf"`/`"sample"` occurs in the lowered query it
adds the fixed terms and, for `"pdf"`, up to 3 pdf-file stems per
semantically retrieved candidate. -/
def expandedTerms (q : String) (pool : List SearchResult) : List String :=
  let ql := queryLower q
  let base := setOfList (tokensOf q)
  if containsSub ql "pdf" || containsSub ql "sample" then
    let s1 := if containsSub ql "sample" then setAdd (setAdd base "sample") "sample-3pp" else base
    if containsSub ql "pdf" then
      pool.foldl (fun acc r => (pdfStemsOf r).foldl setAdd acc) (setAdd s1 "pdf")
    else s1
  else base

/-- `metadata_text`: the (lower-cased) file name and url, each prefixed by
a space, concatenated when truthy. -/
def metadataText (m : ChunkMeta) : String :=
  (if optTruthy m.file_name then " " ++ pyLower (m.file_name.getD "") else "")
    ++ (if optTruthy m.url then " " ++ pyLower (m.url.getD "") else "")

/-- `meta_count = metadata_text.count(term) if metadata_text else 0`. -/
def metaCount (m : ChunkMeta) (t : String) : Nat :=
  if metadataText m = "" then 0 else pyCount (metadataText m) t

/-- The accumulation loop over `query_terms_set` for one candidate:
returns `(term_matches, total_term_count, metadata_matches)`.  The loop
adds, per term, `1` to `term_matches` and the combined count to
`total_term_count` when the combined count is positive, and `1` to
`metadata_matches` when the metadata count is positive. -/
def scoreCounts (terms : List String) (r : SearchResult) : Nat × Nat × Nat :=
  match terms with
  | [] => (0, 0, 0)
  | t :: ts =>
      let rest := scoreCounts ts r
      let cc := pyCount (pyLower r.content) t
      let mc := metaCount r.meta t
      if cc + mc > 0 then
        (rest.1 + 1, rest.2.1 + (cc + mc), rest.2.2 + (if mc > 0 then 1 else 0))
      else rest

/-- The per-candidate score (lines 100–106):
`0.5·presence + 0.3·min(frequency, 1) + min(metadata_boost, 0.3)` when
some term matched, else `0.0`. -/
def keywordScoreFor (terms : List String) (r : SearchResult) : ℚ :=
  if (scoreCounts terms r).1 > 0 then
    (1 / 2) * (((scoreCounts terms r).1 : ℚ) / (terms.length : ℚ))
      + (3 / 10) * min (((scoreCounts terms r).2.1 : ℚ) / ((terms.length : ℚ) * 5)) 1
      + min (((scoreCounts terms r).2.2 : ℚ) / (terms.length : ℚ)) (3 / 10)
  else 0

/-- `_keyword_search` as a score list aligned with the pool (the code
returns a dict keyed by chunk identity, read back positionally with
default `0.0` by `_combine_results`; the early `return {}` paths
therefore behave as all-zero scores). -/
def keywordSearch (q : String) (pool : List SearchResult) : List ℚ :=
  if queryLower q = "" then pool.map (fun _ => 0)
  else if tokensOf q = [] then pool.map (fun _ => 0)
  else pool.map (keywordScoreFor (expandedTerms q pool))

/-! ## Fusion and reranking (`_combine_results`, `_rerank`) -/

/-- `x.metadata.get("combined_score", 0.0)`, the sort key of both stages. -/
def combinedKey (r : SearchResult) : ℚ :=
  r.combined_score.getD 0

/-- One insertion step of the stable descending sort: the inserted
element (earlier in the original list) moves past an element of the
already sorted tail only when that element has a strictly larger key, so
elements with equal keys keep their original relative order — the
semantics of the stable Python `list.sort(key=..., reverse=True)`. -/
def insertDesc (x : SearchResult) : List SearchResult → List SearchResult
  | [] => [x]
  | a :: as => if combinedKey x < combinedKey a then a :: insertDesc x as else x :: a :: as

/-- Stable descending sort by `combinedKey`, modelling
`results.sort(key=lambda x: x.metadata.get("combined_score", 0.0), reverse=True)`. -/
def sortDesc : List SearchResult → List SearchResult
  | [] => []
  | x :: xs => insertDesc x (sortDesc xs)

/-- The scoring loop of `_combine_results`: fuses the normalized semantic
score (defaulting to the raw score when unset) with the keyword score and
writes `combined_score` and `keyword_score`. -/
def assignCombined (cfg : HybridSearchConfig) (pool : List SearchResult) (kws : List ℚ) :
    List SearchResult :=
  (pool.zip kws).map (fun p =>
    let sem := p.1.semantic_score.getD p.1.score
    { p.1 with
      combined_score := some (cfg.semantic_weight * sem + cfg.keyword_weight * p.2)
      keyword_score := some p.2 })

/-- `_combine_results`: fuse, then stable descending sort. -/
def combineResults (cfg : HybridSearchConfig) (pool : List SearchResult) (kws : List ℚ) :
    List SearchResult :=
  sortDesc (assignCombined cfg pool kws)

/-- `is_site_query = "site" in query_lower or "this" in query_lower`
(substring containment on the lower-cased query). -/
def isSiteQuery (q : String) : Bool :=
  containsSub (pyLower q) "site" || containsSub (pyLower q) "this"

/-- `has_site_context`: truthiness of `site_common`, `navigation_links`
or `url` in the chunk metadata. -/
def hasSiteContext (m : ChunkMeta) : Bool :=
  m.site_common || m.navigation_links || optTruthy m.url

/-- The `site_context_boost` of `_rerank` (lines 156–167): `0.15` for a
candidate with site context, replaced by `0.25` on a site query. -/
def siteContextBoost (isSite : Bool) (m : ChunkMeta) : ℚ :=
  if hasSiteContext m then (if isSite then 1 / 4 else 3 / 20) else 0

/-- The `position_boost` loop: for each query term found in the content,
add `1/(1 + pos/100)` at its first occurrence. -/
def positionBoost (qterms : List String) (content : String) : ℚ :=
  qterms.foldl (fun acc t =>
    match pyFind content t with
    | none => acc
    | some pos => acc + 1 / (1 + (pos : ℚ) / 100)) 0

/-- `query_terms = set(query_lower.split())` of `_rerank` — note: the
query is lowered but not stripped here, and length-1 tokens are kept. -/
def rerankTerms (q : String) : List String :=
  setOfList (pySplitWs (pyLower q))

/-- The boost loop of `_rerank`: adds `position_boost * 0.1` and the
site-context boost to `combined_score` of every candidate. -/
def applyBoosts (q : String) (results : List SearchResult) : List SearchResult :=
  results.map (fun r =>
    let pb := positionBoost (rerankTerms q) (pyLower r.content)
    let scb := siteContextBoost (isSiteQuery q) r.meta
    { r with combined_score := some (combinedKey r + pb * (1 / 10) + scb) })

/-- `_rerank`: apply boosts, then stable descending re-sort. -/
def rerank (q : String) (results : List SearchResult) : List SearchResult :=
  sortDesc (applyBoosts q results)

/-! ## The orchestrating `search` (lines 17–40)

The vector index is an injected collaborator; it is modelled as an
oracle function from the query and the requested `top_k` to a result
list.  `search` performs no query validation: the query goes straight to
the store with `top_k * 2`. -/

def search (cfg : HybridSearchConfig) (store : String → Nat → List SearchResult)
    (q : String) : List SearchResult :=
  let semantic_results := applySemanticNormalization (store q (cfg.top_k * 2))
  let kws := keywordSearch q semantic_results
  let combined := combineResults cfg semantic_results kws
  (if cfg.rerank then rerank q combined else combined).take cfg.top_k

/-! ## Concrete instances used by the counterexamples and witnesses -/

/-- Metadata with every field absent. -/
def mNone : ChunkMeta := ⟨none, none, false, false⟩

/-- Metadata carrying only a source url (site context through `url`). -/
def mUrl : ChunkMeta := ⟨none, some "http://x", false, false⟩

/-- A candidate whose content repeats a term five times and whose file
name also contains it. -/
def rAB : SearchResult :=
  { content := "ab ab ab ab ab", meta := ⟨some "ab.txt", none, false, false⟩, score := 9 / 10 }

/-- The candidate `rAB` as the normalization stage rewrites it. -/
def rABn : SearchResult :=
  { rAB with
    semantic_score := some ((rAB.score - poolMin [rAB.score]) / scoreRange [rAB.score]) }

/-- A candidate with empty content but a file name matching the query. -/
def rC4 : SearchResult :=
  { content := "", meta := ⟨some "hello.txt", none, false, false⟩, score := 0 }

/-- A second empty-content candidate with a matching file name. -/
def rC5 : SearchResult :=
  { content := "", meta := ⟨some "world.md", none, false, false⟩, score := 0 }

/-- The observed candidate of the independence counterexample. -/
def rA7 : SearchResult := { content := "abcd things", meta := mNone, score := 0 }

/-- A bystander candidate without pdf references. -/
def rB1 : SearchResult := { content := "zzzz", meta := mNone, score := 0 }

/-- A bystander candidate whose content contains `abcd.pdf`. -/
def rB2 : SearchResult := { content := "abcd.pdf", meta := mNone, score := 0 }

/-- A candidate whose content is just `hello`. -/
def rHello : SearchResult := { content := "hello", meta := mNone, score := 0 }

/-- A candidate with empty content and no metadata. -/
def rEmpty : SearchResult := { content := "", meta := mNone, score := 0 }

/-- The default configuration of `HybridSearchConfig` (weights 0.7/0.3,
`top_k = 5`, reranking enabled). -/
def cfgEx : HybridSearchConfig := ⟨7 / 10, 3 / 10, 5, true⟩

/-- A store oracle answering every request with the single candidate `rAB`. -/
def storeAB : String → Nat → List SearchResult := fun _ _ => [rAB]

/-- A store oracle answering every request with the empty pool. -/
def storeEmptyPool : String → Nat → List SearchResult := fun _ _ => []

/-- A store oracle agreeing with `storeAB` exactly on requests for 10
neighbours (the over-fetch size of `cfgEx`). -/
def storeAB2 : String → Nat → List SearchResult := fun _ k => if k = 10 then [rAB] else []

/-! ## LexicalScorer as worded by the specification (claim C4)

The spec derives the three counters differently from the code: content
matches are counted in the content alone, the frequency sums content
occurrences alone, and the metadata component is an occurrence count
rather than a count of distinct matched terms. -/

/-- Modelled from the spec: `contentMatches` = distinct expanded terms
occurring as substrings of the lower-cased content, `contentFrequency` =
sum of per-term content occurrence counts, `metadataMatches` = occurrence
count across the metadata concatenation, combined by
`0.5·(contentMatches/|terms|) + 0.3·min(contentFrequency/(|terms|·5), 1)
+ min(metadataMatches/|terms|, 0.3)`, and `0.0` if `contentMatches == 0`. -/
def claimLexicalScore (terms : List String) (r : SearchResult) : ℚ :=
  let cm := terms.countP (fun t => decide (0 < pyCount (pyLower r.content) t))
  let cf := (terms.map (fun t => pyCount (pyLower r.content) t)).sum
  let mm := (terms.map (fun t => pyCount (metadataText r.meta) t)).sum
  if cm = 0 then 0
  else
    (1 / 2) * ((cm : ℚ) / (terms.length : ℚ))
      + (3 / 10) * min ((cf : ℚ) / ((terms.length : ℚ) * 5)) 1
      + min ((mm : ℚ) / (terms.length : ℚ)) (3 / 10)

/-! ## Helper lemmas: list folds of `max` and `min` -/

theorem foldl_max_init_le (l : List ℚ) : ∀ a : ℚ, a ≤ l.foldl max a := by
  induction l with
  | nil => intro a; simp
  | cons b t ih => intro a; exact le_trans (le_max_left a b) (ih (max a b))

theorem le_foldl_max (l : List ℚ) : ∀ (a x : ℚ), x ∈ l → x ≤ l.foldl max a := by
  induction l with
  | nil => intro _ _ hx; cases hx
  | cons b t ih =>
      intro a x hx
      rcases List.mem_cons.mp hx with h | h
      · subst h; exact le_trans (le_max_right a x) (foldl_max_init_le t _)
      · exact ih _ x h

theorem foldl_min_le_init (l : List ℚ) : ∀ a : ℚ, l.foldl min a ≤ a := by
  induction l with
  | nil => intro a; simp
  | cons b t ih => intro a; exact le_trans (ih (min a b)) (min_le_left a b)

theorem foldl_min_le (l : List ℚ) : ∀ (a x : ℚ), x ∈ l → l.foldl min a ≤ x := by
  induction l with
  | nil => intro _ _ hx; cases hx
  | cons b t ih =>
      intro a x hx
      rcases List.mem_cons.mp hx with h | h
      · subst h; exact le_trans (foldl_min_le_init t _) (min_le_right a x)
      · exact ih _ x h

theorem le_poolMax {x : ℚ} {scores : List ℚ} (hx : x ∈ scores) : x ≤ poolMax scores := by
  cases scores with
  | nil => cases hx
  | cons s rest =>
      rcases List.mem_cons.mp hx with h | h
      · subst h; exact foldl_max_init_le rest x
      · exact le_foldl_max rest s x h

theorem poolMin_le {x : ℚ} {scores : List ℚ} (hx : x ∈ scores) : poolMin scores ≤ x := by
  cases scores with
  | nil => cases hx
  | cons s rest =>
      rcases List.mem_cons.mp hx with h | h
      · subst h; exact foldl_min_le_init rest x
      · exact foldl_min_le rest s x h

/-- The value the normalization loop writes lies in the unit interval. -/
theorem normalized_mem_unit {scores : List ℚ} {x : ℚ} (hx : x ∈ scores) :
    0 ≤ (x - poolMin scores) / scoreRange scores
      ∧ (x - poolMin scores) / scoreRange scores ≤ 1 := by
  by_cases hEq : poolMax scores = poolMin scores
  · have hxmin : x = poolMin scores := le_antisymm (hEq ▸ le_poolMax hx) (poolMin_le hx)
    constructor <;> simp [hxmin]
  · have hr : scoreRange scores = poolMax scores - poolMin scores := by
      simp [scoreRange, hEq]
    have hlt : poolMin scores < poolMax scores :=
      lt_of_le_of_ne (le_trans (poolMin_le hx) (le_poolMax hx)) (Ne.symm hEq)
    have hpos : (0 : ℚ) < poolMax scores - poolMin scores := sub_pos.mpr hlt
    constructor
    · exact div_nonneg (sub_nonneg.mpr (poolMin_le hx)) (hr ▸ le_of_lt hpos)
    · rw [hr]
      exact (div_le_one hpos).mpr (sub_le_sub_right (le_poolMax hx) _)

/-! ## Helper lemmas: the per-candidate counters and score -/

/-- `term_matches` never exceeds the number of terms. -/
theorem scoreCounts_fst_le (terms : List String) (r : SearchResult) :
    (scoreCounts terms r).1 ≤ terms.length := by
  induction terms with
  | nil => simp [scoreCounts]
  | cons t ts ih =>
      simp only [scoreCounts]
      split
      · exact Nat.succ_le_succ ih
      · exact Nat.le_trans ih (Nat.le_succ _)

/-- `metadata_matches` never exceeds `term_matches`. -/
theorem scoreCounts_meta_le_fst (terms : List String) (r : SearchResult) :
    (scoreCounts terms r).2.2 ≤ (scoreCounts terms r).1 := by
  induction terms with
  | nil => simp [scoreCounts]
  | cons t ts ih =>
      simp only [scoreCounts]
      split
      · dsimp only
        split <;> omega
      · exact ih

/-- `term_matches` counts the distinct terms with a positive combined
(content plus metadata) occurrence count. -/
theorem scoreCounts_fst_eq (terms : List String) (r : SearchResult) :
    (scoreCounts terms r).1 =
      terms.countP (fun t => decide (0 < pyCount (pyLower r.content) t + metaCount r.meta t)) := by
  induction terms with
  | nil => simp [scoreCounts]
  | cons t ts ih =>
      simp only [scoreCounts, List.countP_cons]
      split
      · rename_i h
        have hor : 0 < pyCount (pyLower r.content) t ∨ 0 < metaCount r.meta t := by omega
        simp [ih, hor]
      · rename_i h
        have hc : pyCount (pyLower r.content) t = 0 := by omega
        have hm : metaCount r.meta t = 0 := by omega
        simp [ih, hc, hm]

/-- `total_term_count` is the sum of the combined occurrence counts over
all terms (unmatched terms contribute zero). -/
theorem scoreCounts_snd_eq (terms : List String) (r : SearchResult) :
    (scoreCounts terms r).2.1 =
      (terms.map (fun t => pyCount (pyLower r.content) t + metaCount r.meta t)).sum := by
  induction terms with
  | nil => simp [scoreCounts]
  | cons t ts ih =>
      simp only [scoreCounts, List.map_cons, List.sum_cons]
      split
      · dsimp only; omega
      · rename_i h; omega

/-- `metadata_matches` counts the distinct terms with a positive
metadata occurrence count. -/
theorem scoreCounts_meta_eq (terms : List String) (r : SearchResult) :
    (scoreCounts terms r).2.2 =
      terms.countP (fun t => decide (0 < metaCount r.meta t)) := by
  induction terms with
  | nil => simp [scoreCounts]
  | cons t ts ih =>
      simp only [scoreCounts, List.countP_cons]
      split
      · dsimp only
        by_cases hm : 0 < metaCount r.meta t
        · have hd : (decide (0 < metaCount r.meta t)) = true := by simpa using hm
          simp [hm, hd, ih]
        · have hd : (decide (0 < metaCount r.meta t)) = false := by simpa using hm
          simp [hm, hd, ih]
      · rename_i h
        have hm : ¬ 0 < metaCount r.meta t := by omega
        have hd : (decide (0 < metaCount r.meta t)) = false := by simpa using hm
        simp [hd, ih]

/-- The per-candidate keyword score is nonnegative. -/
theorem keywordScoreFor_nonneg (terms : List String) (r : SearchResult) :
    0 ≤ keywordScoreFor terms r := by
  unfold keywordScoreFor
  split
  · have h1 : (0 : ℚ) ≤ ((scoreCounts terms r).1 : ℚ) / (terms.length : ℚ) :=
      div_nonneg (Nat.cast_nonneg _) (Nat.cast_nonneg _)
    have h2 : (0 : ℚ) ≤ min (((scoreCounts terms r).2.1 : ℚ) / ((terms.length : ℚ) * 5)) 1 :=
      le_min (div_nonneg (Nat.cast_nonneg _) (by positivity)) (by norm_num)
    have h3 : (0 : ℚ) ≤ min (((scoreCounts terms r).2.2 : ℚ) / (terms.length : ℚ)) (3 / 10) :=
      le_min (div_nonneg (Nat.cast_nonneg _) (Nat.cast_nonneg _)) (by norm_num)
    have := mul_nonneg (by norm_num : (0:ℚ) ≤ 1/2) h1
    have := mul_nonneg (by norm_num : (0:ℚ) ≤ 3/10) h2
    linarith
  · exact le_refl 0

/-- The per-candidate keyword score is bounded by `1.1`: the presence
part by `0.5`, the frequency part by `0.3` and the metadata boost by
`0.3`. -/
theorem keywordScoreFor_le (terms : List String) (r : SearchResult) :
    keywordScoreFor terms r ≤ 11 / 10 := by
  unfold keywordScoreFor
  split
  · rename_i hpos
    have hlen : 0 < terms.length := Nat.lt_of_lt_of_le hpos (scoreCounts_fst_le terms r)
    have hlenQ : (0 : ℚ) < (terms.length : ℚ) := by exact_mod_cast hlen
    have h1 : ((scoreCounts terms r).1 : ℚ) / (terms.length : ℚ) ≤ 1 := by
      rw [div_le_one hlenQ]
      exact_mod_cast scoreCounts_fst_le terms r
    have h2 : min (((scoreCounts terms r).2.1 : ℚ) / ((terms.length : ℚ) * 5)) 1 ≤ 1 :=
      min_le_right _ _
    have h3 : min (((scoreCounts terms r).2.2 : ℚ) / (terms.length : ℚ)) (3 / 10) ≤ 3 / 10 :=
      min_le_right _ _
    have hm1 : (1/2 : ℚ) * (((scoreCounts terms r).1 : ℚ) / (terms.length : ℚ)) ≤ 1/2 := by
      nlinarith
    have hm2 : (3/10 : ℚ) * min (((scoreCounts terms r).2.1 : ℚ) / ((terms.length : ℚ) * 5)) 1
        ≤ 3/10 := by nlinarith
    linarith
  · norm_num

/-- A positive keyword score whenever some term matched. -/
theorem keywordScoreFor_pos (terms : List String) (r : SearchResult)
    (h : 0 < (scoreCounts terms r).1) : 0 < keywordScoreFor terms r := by
  unfold keywordScoreFor
  rw [if_pos h]
  have hlen : 0 < terms.length := Nat.lt_of_lt_of_le h (scoreCounts_fst_le terms r)
  have hlenQ : (0 : ℚ) < (terms.length : ℚ) := by exact_mod_cast hlen
  have h1 : (0 : ℚ) < ((scoreCounts terms r).1 : ℚ) / (terms.length : ℚ) :=
    div_pos (by exact_mod_cast h) hlenQ
  have h2 : (0 : ℚ) ≤ min (((scoreCounts terms r).2.1 : ℚ) / ((terms.length : ℚ) * 5)) 1 :=
    le_min (div_nonneg (Nat.cast_nonneg _) (by positivity)) (by norm_num)
  have h3 : (0 : ℚ) ≤ min (((scoreCounts terms r).2.2 : ℚ) / (terms.length : ℚ)) (3 / 10) :=
    le_min (div_nonneg (Nat.cast_nonneg _) (Nat.cast_nonneg _)) (by norm_num)
  nlinarith

/-- Every score `_keyword_search` produces lies in `[0, 1.1]`. -/
theorem keywordSearch_bounds (q : String) (pool : List SearchResult) :
    ∀ k ∈ keywordSearch q pool, 0 ≤ k ∧ k ≤ 11 / 10 := by
  intro k hk
  unfold keywordSearch at hk
  split at hk
  · rcases List.mem_map.mp hk with ⟨r, _, hzero⟩
    subst hzero; norm_num
  · split at hk
    · rcases List.mem_map.mp hk with ⟨r, _, hzero⟩
      subst hzero; norm_num
    · rcases List.mem_map.mp hk with ⟨r, _, hscore⟩
      subst hscore
      exact ⟨keywordScoreFor_nonneg _ _, keywordScoreFor_le _ _⟩

/-- Every result the normalization stage emits carries a semantic score
in the unit interval, and keeps content, metadata and the other fields. -/
theorem applySemanticNormalization_mem (pool : List SearchResult) :
    ∀ r ∈ applySemanticNormalization pool,
      ∃ v, r.semantic_score = some v ∧ 0 ≤ v ∧ v ≤ 1 := by
  intro r hr
  cases pool with
  | nil => cases hr
  | cons p ps =>
      simp only [applySemanticNormalization] at hr
      rcases List.mem_map.mp hr with ⟨r0, hr0, heq⟩
      refine ⟨(r0.score - poolMin ((p :: ps).map (fun r => r.score)))
          / scoreRange ((p :: ps).map (fun r => r.score)), ?_, ?_, ?_⟩
      · rw [← heq]
      · exact (normalized_mem_unit (List.mem_map_of_mem _ hr0)).1
      · exact (normalized_mem_unit (List.mem_map_of_mem _ hr0)).2

/-! ## Helper lemmas: the stable descending sort -/

theorem mem_insertDesc {x b : SearchResult} {l : List SearchResult} :
    b ∈ insertDesc x l ↔ b = x ∨ b ∈ l := by
  induction l with
  | nil => simp [insertDesc]
  | cons a as ih =>
      simp only [insertDesc]
      split
      · simp only [List.mem_cons, ih]
        tauto
      · simp only [List.mem_cons]

theorem mem_sortDesc {b : SearchResult} {l : List SearchResult} :
    b ∈ sortDesc l ↔ b ∈ l := by
  induction l with
  | nil => simp [sortDesc]
  | cons x xs ih =>
      simp only [sortDesc, mem_insertDesc, ih, List.mem_cons]

theorem insertDesc_sorted {l : List SearchResult}
    (h : l.Pairwise (fun a b => combinedKey b ≤ combinedKey a)) (x : SearchResult) :
    (insertDesc x l).Pairwise (fun a b => combinedKey b ≤ combinedKey a) := by
  induction l with
  | nil => simp [insertDesc]
  | cons a as ih =>
      rcases List.pairwise_cons.mp h with ⟨ha, has⟩
      simp only [insertDesc]
      split
      · rename_i hlt
        refine List.pairwise_cons.mpr ⟨?_, ih has⟩
        intro b hb
        rcases mem_insertDesc.mp hb with hbx | hbas
        · subst hbx; exact le_of_lt hlt
        · exact ha b hbas
      · rename_i hge
        refine List.pairwise_cons.mpr ⟨?_, h⟩
        intro b hb
        rcases List.mem_cons.mp hb with hba | hbas
        · subst hba; exact le_of_not_lt hge
        · exact le_trans (ha b hbas) (le_of_not_lt hge)

theorem sortDesc_sorted (l : List SearchResult) :
    (sortDesc l).Pairwise (fun a b => combinedKey b ≤ combinedKey a) := by
  induction l with
  | nil => simp [sortDesc]
  | cons x xs ih => exact insertDesc_sorted ih x

/-- Stability of the insertion step: restricted to any fixed key value,
inserting is the same as prepending, because an element passes only
elements with a strictly larger key. -/
theorem filter_insertDesc (c : ℚ) (x : SearchResult) (l : List SearchResult) :
    (insertDesc x l).filter (fun r => decide (combinedKey r = c))
      = (x :: l).filter (fun r => decide (combinedKey r = c)) := by
  induction l with
  | nil => rfl
  | cons a as ih =>
      simp only [insertDesc]
      split
      · rename_i hlt
        by_cases hx : combinedKey x = c
        · have hane : ¬ combinedKey a = c := by
            intro hac
            rw [hx] at hlt
            rw [hac] at hlt
            exact lt_irrefl c hlt
          simp [List.filter_cons, ih, hx, hane]
        · simp [List.filter_cons, ih, hx]
      · rfl

/-- Stability of the sort: restricted to any fixed key value, sorting is
the identity. -/
theorem filter_sortDesc (c : ℚ) (l : List SearchResult) :
    (sortDesc l).filter (fun r => decide (combinedKey r = c))
      = l.filter (fun r => decide (combinedKey r = c)) := by
  induction l with
  | nil => rfl
  | cons x xs ih =>
      simp only [sortDesc, filter_insertDesc, List.filter_cons, ih]

/-! ## Helper lemmas: set emulation and term expansion -/

theorem mem_setAdd_of_mem {l : List String} {x : String} (y : String) (h : x ∈ l) :
    x ∈ setAdd l y := by
  unfold setAdd
  split
  · exact h
  · exact List.mem_append_left _ h

theorem mem_setAdd_self (l : List String) (y : String) : y ∈ setAdd l y := by
  unfold setAdd
  split
  · assumption
  · exact List.mem_append_right _ (List.mem_singleton.mpr rfl)

theorem mem_setAdd {l : List String} {x y : String} (h : x ∈ setAdd l y) :
    x ∈ l ∨ x = y := by
  unfold setAdd at h
  split at h
  · exact Or.inl h
  · rcases List.mem_append.mp h with h1 | h1
    · exact Or.inl h1
    · exact Or.inr (List.mem_singleton.mp h1)

theorem mem_foldl_setAdd_of_mem {l : List String} {x : String} :
    ∀ init : List String, x ∈ init → x ∈ l.foldl setAdd init := by
  induction l with
  | nil => intro init h; exact h
  | cons a as ih => intro init h; exact ih _ (mem_setAdd_of_mem a h)

theorem mem_foldl_setAdd_of_elem {l : List String} {x : String} (hx : x ∈ l) :
    ∀ init : List String, x ∈ l.foldl setAdd init := by
  induction l with
  | nil => cases hx
  | cons a as ih =>
      intro init
      rcases List.mem_cons.mp hx with h | h
      · subst h; exact mem_foldl_setAdd_of_mem (setAdd init x) (mem_setAdd_self init x)
      · exact ih h _

theorem mem_of_mem_foldl_setAdd {l : List String} {x : String} :
    ∀ init : List String, x ∈ l.foldl setAdd init → x ∈ init ∨ x ∈ l := by
  induction l with
  | nil => intro init h; exact Or.inl h
  | cons a as ih =>
      intro init h
      rcases ih _ h with h1 | h1
      · rcases mem_setAdd h1 with h2 | h2
        · exact Or.inl h2
        · exact Or.inr (h2 ▸ List.mem_cons_self a as)
      · exact Or.inr (List.mem_cons_of_mem a h1)

theorem mem_setOfList {x : String} {l : List String} :
    x ∈ setOfList l ↔ x ∈ l := by
  constructor
  · intro h
    rcases mem_of_mem_foldl_setAdd [] h with h1 | h1
    · cases h1
    · exact h1
  · intro h
    exact mem_foldl_setAdd_of_elem h []

/-- Provenance of the nested expansion fold over the candidate pool. -/
theorem mem_of_mem_pool_foldl {pool : List SearchResult} {x : String} :
    ∀ init : List String,
      x ∈ pool.foldl (fun acc r => (pdfStemsOf r).foldl setAdd acc) init →
        x ∈ init ∨ ∃ r ∈ pool, x ∈ pdfStemsOf r := by
  induction pool with
  | nil => intro init h; exact Or.inl h
  | cons p ps ih =>
      intro init h
      rcases ih _ h with h1 | h1
      · rcases mem_of_mem_foldl_setAdd _ h1 with h2 | h2
        · exact Or.inl h2
        · exact Or.inr ⟨p, List.mem_cons_self p ps, h2⟩
      · rcases h1 with ⟨r, hr, hx⟩
        exact Or.inr ⟨r, List.mem_cons_of_mem p hr, hx⟩

/-- Monotonicity of the nested expansion fold. -/
theorem mem_pool_foldl_of_mem {pool : List SearchResult} {x : String} :
    ∀ init : List String, x ∈ init →
      x ∈ pool.foldl (fun acc r => (pdfStemsOf r).foldl setAdd acc) init := by
  induction pool with
  | nil => intro init h; exact h
  | cons p ps ih =>
      intro init h
      exact ih _ (mem_foldl_setAdd_of_mem _ h)

/-- With no `"pdf"` in the lowered query, the expansion never reads the
candidate pool: it reduces to the token set, plus the two fixed terms on
a `"sample"` query. -/
theorem expandedTerms_eq_of_no_pdf {q : String} (h : containsSub (queryLower q) "pdf" = false)
    (pool : List SearchResult) :
    expandedTerms q pool =
      if containsSub (queryLower q) "sample" then
        setAdd (setAdd (setOfList (tokensOf q)) "sample") "sample-3pp"
      else setOfList (tokensOf q) := by
  simp only [expandedTerms, h, Bool.false_or]
  cases hs : containsSub (queryLower q) "sample" <;> simp [hs, h]

/-- Expansion only adds terms: the original tokens stay in the set. -/
theorem tokens_mem_expandedTerms {q : String} (pool : List SearchResult) :
    ∀ t ∈ tokensOf q, t ∈ expandedTerms q pool := by
  intro t ht
  have hbase : t ∈ setOfList (tokensOf q) := mem_setOfList.mpr ht
  simp only [expandedTerms]
  split
  · split
    · apply mem_pool_foldl_of_mem
      apply mem_setAdd_of_mem
      split
      · exact mem_setAdd_of_mem _ (mem_setAdd_of_mem _ hbase)
      · exact hbase
    · split
      · exact mem_setAdd_of_mem _ (mem_setAdd_of_mem _ hbase)
      · exact hbase
  · exact hbase

/-- Provenance of every expanded term: an original token, one of the
three fixed terms, or a pdf stem harvested from some pool candidate. -/
theorem expandedTerms_provenance {q : String} {pool : List SearchResult} :
    ∀ t ∈ expandedTerms q pool,
      t ∈ tokensOf q ∨ t = "sample" ∨ t = "sample-3pp" ∨ t = "pdf"
        ∨ ∃ r ∈ pool, t ∈ pdfStemsOf r := by
  intro t ht
  simp only [expandedTerms] at ht
  split at ht
  · split at ht
    · rcases mem_of_mem_pool_foldl _ ht with h1 | h1
      · rcases mem_setAdd h1 with h2 | h2
        · split at h2
          · rcases mem_setAdd h2 with h3 | h3
            · rcases mem_setAdd h3 with h4 | h4
              · exact Or.inl (mem_setOfList.mp h4)
              · exact Or.inr (Or.inl h4)
            · exact Or.inr (Or.inr (Or.inl h3))
          · exact Or.inl (mem_setOfList.mp h2)
        · exact Or.inr (Or.inr (Or.inr (Or.inl h2)))
      · exact Or.inr (Or.inr (Or.inr (Or.inr h1)))
    · split at ht
      · rcases mem_setAdd ht with h3 | h3
        · rcases mem_setAdd h3 with h4 | h4
          · exact Or.inl (mem_setOfList.mp h4)
          · exact Or.inr (Or.inl h4)
        · exact Or.inr (Or.inr (Or.inl h3))
      · exact Or.inl (mem_setOfList.mp ht)
  · exact Or.inl (mem_setOfList.mp ht)

/-- Tokens surviving the length filter are nonempty strings. -/
theorem tokensOf_ne_empty {q : String} : ∀ t ∈ tokensOf q, t ≠ "" := by
  intro t ht hempty
  have := List.mem_filter.mp ht
  rw [hempty] at this
  simp at this

/-- Harvested pdf stems are nonempty strings. -/
theorem pdfStemsOf_ne_empty {r : SearchResult} : ∀ t ∈ pdfStemsOf r, t ≠ "" := by
  intro t ht hempty
  have := List.mem_filter.mp ht
  rw [hempty] at this
  simp at this

/-- No expanded term is the empty string. -/
theorem expandedTerms_ne_empty {q : String} {pool : List SearchResult} :
    ∀ t ∈ expandedTerms q pool, t ≠ "" := by
  intro t ht
  rcases expandedTerms_provenance t ht with h | h | h | h | ⟨r, _, hr⟩
  · exact tokensOf_ne_empty t h
  · subst h; simp
  · subst h; simp
  · subst h; simp
  · exact pdfStemsOf_ne_empty t hr

theorem setAdd_length (l : List String) (x : String) :
    (setAdd l x).length ≤ l.length + 1 := by
  unfold setAdd
  split
  · omega
  · simp

theorem foldl_setAdd_length (l : List String) :
    ∀ init : List String, (l.foldl setAdd init).length ≤ init.length + l.length := by
  induction l with
  | nil => intro init; simp
  | cons a as ih =>
      intro init
      calc (as.foldl setAdd (setAdd init a)).length
          ≤ (setAdd init a).length + as.length := ih _
        _ ≤ (init.length + 1) + as.length := by
            exact Nat.add_le_add_right (setAdd_length init a) _
        _ = init.length + (a :: as).length := by simp [List.length_cons]; omega

/-- At most 3 pdf stems are harvested per candidate. -/
theorem pdfStemsOf_length (r : SearchResult) : (pdfStemsOf r).length ≤ 3 := by
  unfold pdfStemsOf
  calc (List.filter _ (List.map _ ((pdfFindAll (pyLower r.content)).take 3))).length
      ≤ (List.map (fun ref => pyReplace ref ".pdf" "") ((pdfFindAll (pyLower r.content)).take 3)).length :=
        List.length_filter_le _ _
    _ = ((pdfFindAll (pyLower r.content)).take 3).length := List.length_map _ _
    _ ≤ 3 := by
        rw [List.length_take]
        exact Nat.min_le_left _ _

theorem pool_foldl_length (pool : List SearchResult) :
    ∀ init : List String,
      (pool.foldl (fun acc r => (pdfStemsOf r).foldl setAdd acc) init).length
        ≤ init.length + 3 * pool.length := by
  induction pool with
  | nil => intro init; simp
  | cons p ps ih =>
      intro init
      calc (ps.foldl (fun acc r => (pdfStemsOf r).foldl setAdd acc)
              ((pdfStemsOf p).foldl setAdd init)).length
          ≤ ((pdfStemsOf p).foldl setAdd init).length + 3 * ps.length := ih _
        _ ≤ (init.length + (pdfStemsOf p).length) + 3 * ps.length := by
            exact Nat.add_le_add_right (foldl_setAdd_length _ init) _
        _ ≤ (init.length + 3) + 3 * ps.length := by
            exact Nat.add_le_add_right (Nat.add_le_add_left (pdfStemsOf_length p) _) _
        _ = init.length + 3 * (p :: ps).length := by
            simp [Nat.mul_succ, List.length_cons]
            omega

/-- The expansion is bounded: the token set plus the three fixed terms
plus at most 3 stems per candidate. -/
theorem expandedTerms_length (q : String) (pool : List SearchResult) :
    (expandedTerms q pool).length
      ≤ (setOfList (tokensOf q)).length + 3 + 3 * pool.length := by
  simp only [expandedTerms]
  split
  · split
    · calc (pool.foldl (fun acc r => (pdfStemsOf r).foldl setAdd acc)
              (setAdd (if containsSub (queryLower q) "sample" then
                  setAdd (setAdd (setOfList (tokensOf q)) "sample") "sample-3pp"
                else setOfList (tokensOf q)) "pdf")).length
          ≤ (setAdd (if containsSub (queryLower q) "sample" then
                  setAdd (setAdd (setOfList (tokensOf q)) "sample") "sample-3pp"
                else setOfList (tokensOf q)) "pdf").length + 3 * pool.length :=
            pool_foldl_length pool _
        _ ≤ ((setOfList (tokensOf q)).length + 3) + 3 * pool.length := by
            refine Nat.add_le_add_right ?_ _
            refine Nat.le_trans (setAdd_length _ _) ?_
            split
            · refine Nat.succ_le_succ ?_
              refine Nat.le_trans (setAdd_length _ _) ?_
              exact Nat.succ_le_succ (setAdd_length _ _)
            · omega
        _ = (setOfList (tokensOf q)).length + 3 + 3 * pool.length := rfl
    · split
      · refine Nat.le_trans (setAdd_length _ _) ?_
        refine Nat.le_trans (Nat.succ_le_succ (setAdd_length _ _)) ?_
        omega
      · omega
  · omega

/-! ## Helper lemmas: field provenance through fusion and reranking -/

theorem mem_combineResults {cfg : HybridSearchConfig} {pool : List SearchResult}
    {kws : List ℚ} {r : SearchResult} (hr : r ∈ combineResults cfg pool kws) :
    ∃ r0 k, r0 ∈ pool ∧ k ∈ kws
      ∧ r.semantic_score = r0.semantic_score ∧ r.keyword_score = some k := by
  unfold combineResults at hr
  have hmem := mem_sortDesc.mp hr
  unfold assignCombined at hmem
  rcases List.mem_map.mp hmem with ⟨p, hp, heq⟩
  rcases List.of_mem_zip hp with ⟨h1, h2⟩
  exact ⟨p.1, p.2, h1, h2, by rw [← heq], by rw [← heq]⟩

theorem mem_applyBoosts {q : String} {l : List SearchResult} {r : SearchResult}
    (hr : r ∈ applyBoosts q l) :
    ∃ r0 ∈ l, r.semantic_score = r0.semantic_score ∧ r.keyword_score = r0.keyword_score := by
  unfold applyBoosts at hr
  rcases List.mem_map.mp hr with ⟨r0, h0, heq⟩
  exact ⟨r0, h0, by rw [← heq], by rw [← heq]⟩

/-! ## Claim theorems -/

/-- C1 (amended): the retrieved pool is normalized to
`(s - min)/(max - min)` per raw similarity; when `max == min` (single
element or all equal) every normalized semantic score equals `0.0` (not
`1.0`); the empty pool yields empty output; and the divisor is never
zero. -/
theorem C1_normalization_amended (scores : List ℚ) :
    normalizeScores ([] : List ℚ) = []
    ∧ scoreRange scores ≠ 0
    ∧ (poolMax scores = poolMin scores →
        normalizeScores scores = scores.map (fun _ => 0))
    ∧ (poolMax scores ≠ poolMin scores →
        normalizeScores scores =
          scores.map (fun x => (x - poolMin scores) / (poolMax scores - poolMin scores))) := by
  refine ⟨rfl, ?_, ?_, ?_⟩
  · unfold scoreRange
    split
    · rename_i h; exact sub_ne_zero.mpr h
    · exact one_ne_zero
  · intro hEq
    cases scores with
    | nil => rfl
    | cons s rest =>
        simp only [normalizeScores]
        apply List.map_congr_left
        intro x hx
        have hxmin : x = poolMin (s :: rest) :=
          le_antisymm (hEq ▸ le_poolMax hx) (poolMin_le hx)
        simp [hxmin]
  · intro hNe
    cases scores with
    | nil => rfl
    | cons s rest =>
        have hrange : scoreRange (s :: rest) = poolMax (s :: rest) - poolMin (s :: rest) :=
          if_pos hNe
        simp only [normalizeScores, hrange]

/-- Witness for C1: on `[1,3,5]` the max differs from the min and the
formula yields `[0, 1/2, 1]`; on `[1,1,1]` they coincide and every
output is `0`. -/
theorem C1_normalization_witness :
    (poolMax [1, 3, 5] ≠ poolMin [1, 3, 5] ∧ normalizeScores [1, 3, 5] = [0, 1/2, 1])
    ∧ (poolMax [1, 1, 1] = poolMin [1, 1, 1] ∧ normalizeScores [1, 1, 1] = [0, 0, 0]) := by
  have hq : poolMax [(1 : ℚ), 3, 5] ≠ poolMin [(1 : ℚ), 3, 5] := by
    norm_num [poolMax, poolMin, max_def, min_def]
  have he : poolMax [(1 : ℚ), 1, 1] = poolMin [(1 : ℚ), 1, 1] := by
    norm_num [poolMax, poolMin, max_def, min_def]
  constructor
  · refine ⟨hq, ?_⟩
    have h := (C1_normalization_amended [1, 3, 5]).2.2.2 hq
    rw [h]
    norm_num [poolMax, poolMin, max_def, min_def]
  · refine ⟨he, ?_⟩
    have h := (C1_normalization_amended [1, 1, 1]).2.2.1 he
    rw [h]
    norm_num

/-- C1 counterexample: the claim asserts `normalize([5]) = [1.0]` and
`normalize([1,1,1]) = [1.0,1.0,1.0]`, but the code divides the zero
spread by the fallback range `1.0` and yields `0.0`. -/
theorem C1_normalization_counterexample :
    normalizeScores [5] = [0] ∧ normalizeScores [5] ≠ [1]
    ∧ normalizeScores [1, 1, 1] = [0, 0, 0]
    ∧ normalizeScores [1, 1, 1] ≠ [1, 1, 1] := by
  have h5 : normalizeScores [5] = [0] := by
    norm_num [normalizeScores, poolMax, poolMin, scoreRange]
  have h111 : normalizeScores [1, 1, 1] = [0, 0, 0] := by
    norm_num [normalizeScores, poolMax, poolMin, scoreRange, max_def, min_def]
  refine ⟨h5, ?_, h111, ?_⟩
  · rw [h5]; norm_num
  · rw [h111]; norm_num

/-- C2 (amended): a blank query is not rejected — no `InvalidQuery`
exception exists in the code base; the query is forwarded to the vector
index, and only the keyword stage short-circuits, giving every candidate
a zero lexical score. -/
theorem C2_blank_query_amended (cfg : HybridSearchConfig)
    (store : String → Nat → List SearchResult) (q : String) (h : queryLower q = "") :
    search cfg store q =
      ((if cfg.rerank then
          rerank q (combineResults cfg (applySemanticNormalization (store q (cfg.top_k * 2)))
            ((applySemanticNormalization (store q (cfg.top_k * 2))).map (fun _ => 0)))
        else
          combineResults cfg (applySemanticNormalization (store q (cfg.top_k * 2)))
            ((applySemanticNormalization (store q (cfg.top_k * 2))).map (fun _ => 0))).take
        cfg.top_k) := by
  simp [search, keywordSearch, h]

/-- Witness for C2: the whitespace-only query evaluated against the
single-candidate store. -/
theorem C2_blank_query_witness :
    queryLower "   " = ""
    ∧ search cfgEx storeAB "   " =
        ((if cfgEx.rerank then
            rerank "   " (combineResults cfgEx
              (applySemanticNormalization (storeAB "   " (cfgEx.top_k * 2)))
              ((applySemanticNormalization (storeAB "   " (cfgEx.top_k * 2))).map (fun _ => 0)))
          else
            combineResults cfgEx (applySemanticNormalization (storeAB "   " (cfgEx.top_k * 2)))
              ((applySemanticNormalization (storeAB "   " (cfgEx.top_k * 2))).map
                (fun _ => 0))).take cfgEx.top_k) :=
  ⟨by decide, C2_blank_query_amended cfgEx storeAB "   " (by decide)⟩

/-- C2 counterexample: on a blank query the vector index is still
consulted — two stores that differ produce different search outputs for
the blank query — and a normal nonempty result list is returned instead
of an `InvalidQuery` rejection. -/
theorem C2_blank_query_counterexample :
    search cfgEx storeAB "   " ≠ search cfgEx storeEmptyPool "   "
    ∧ (search cfgEx storeAB "   ").length = 1 := by
  have hempty : search cfgEx storeEmptyPool "   " = [] := rfl
  have hlen : (search cfgEx storeAB "   ").length = 1 := rfl
  refine ⟨?_, hlen⟩
  intro hEq
  rw [hEq, hempty] at hlen
  simp at hlen

/-- C3 (amended): every scored candidate produced by a search call has
`semanticScore ∈ [0, 1]`, but the lexical score is only bounded by
`[0, 1.1]` (presence `≤ 0.5`, frequency `≤ 0.3`, metadata boost `≤ 0.3`). -/
theorem C3_score_bounds_amended (cfg : HybridSearchConfig)
    (store : String → Nat → List SearchResult) (q : String) :
    ∀ r ∈ search cfg store q,
      ∃ v k, r.semantic_score = some v ∧ 0 ≤ v ∧ v ≤ 1
        ∧ r.keyword_score = some k ∧ 0 ≤ k ∧ k ≤ 11 / 10 := by
  intro r hr
  unfold search at hr
  have hr1 := List.mem_of_mem_take hr
  have hcomb : ∃ rc, rc ∈ combineResults cfg
      (applySemanticNormalization (store q (cfg.top_k * 2)))
      (keywordSearch q (applySemanticNormalization (store q (cfg.top_k * 2))))
      ∧ r.semantic_score = rc.semantic_score ∧ r.keyword_score = rc.keyword_score := by
    split at hr1
    · unfold rerank at hr1
      rcases mem_applyBoosts (mem_sortDesc.mp hr1) with ⟨r0, h0, hs, hk⟩
      exact ⟨r0, h0, hs, hk⟩
    · exact ⟨r, hr1, rfl, rfl⟩
  rcases hcomb with ⟨rc, hrc, hs, hk⟩
  rcases mem_combineResults hrc with ⟨r0, k, h0, hkk, hs0, hk0⟩
  rcases applySemanticNormalization_mem _ r0 h0 with ⟨v, hv, hv0, hv1⟩
  rcases keywordSearch_bounds _ _ k hkk with ⟨hk1, hk2⟩
  exact ⟨v, k, by rw [hs, hs0, hv], hv0, hv1, by rw [hk, hk0], hk1, hk2⟩

/-- Witness for C3: the first result of a concrete search call. -/
theorem C3_score_bounds_witness :
    ∃ v k, ((search cfgEx storeAB "ab").headD rAB).semantic_score = some v
      ∧ 0 ≤ v ∧ v ≤ 1
      ∧ ((search cfgEx storeAB "ab").headD rAB).keyword_score = some k
      ∧ 0 ≤ k ∧ k ≤ 11 / 10 := by
  refine C3_score_bounds_amended cfgEx storeAB "ab" _ ?_
  have hlen : (search cfgEx storeAB "ab").length = 1 := rfl
  cases hL : search cfgEx storeAB "ab" with
  | nil => rw [hL] at hlen; simp at hlen
  | cons x xs => simp

/-- C3 counterexample: a search call whose candidate matches its single
query term five times in content and once in the file name receives
lexical score `1.1 > 1`, refuting `lexicalScore ≤ 1`. -/
theorem C3_score_bounds_counterexample :
    (search cfgEx storeAB "ab").map (fun r => r.keyword_score) = [some (11 / 10)]
    ∧ ¬ ((11 : ℚ) / 10 ≤ 1) := by
  constructor
  · have hred : (search cfgEx storeAB "ab").map (fun r => r.keyword_score)
        = [some (keywordScoreFor ["ab"] rABn)] := rfl
    rw [hred]
    have hsc : scoreCounts ["ab"] rABn = (1, 6, 1) := by decide
    unfold keywordScoreFor
    rw [hsc]
    norm_num [min_def]
  · norm_num

/-- With empty content and no metadata occurrence of any (nonempty)
term, all three counters stay zero. -/
theorem scoreCounts_zero (r : SearchResult) (hc : r.content = "") :
    ∀ terms : List String, (∀ t ∈ terms, t ≠ "") → (∀ t ∈ terms, metaCount r.meta t = 0) →
      scoreCounts terms r = (0, 0, 0) := by
  intro terms
  induction terms with
  | nil => intro _ _; rfl
  | cons t ts ih =>
      intro hne hm
      have ht : t ≠ "" := hne t (List.mem_cons_self t ts)
      have hcc : pyCount (pyLower r.content) t = 0 := by
        rw [hc]
        unfold pyCount
        rw [if_neg (by simpa [String.isEmpty_iff] using ht)]
        rfl
      have hmc : metaCount r.meta t = 0 := hm t (List.mem_cons_self t ts)
      simp only [scoreCounts, hcc, hmc]
      norm_num
      exact ih (fun x hx => hne x (List.mem_cons_of_mem t hx))
        (fun x hx => hm x (List.mem_cons_of_mem t hx))

/-- C4 (amended): the lexical score is
`0.5·(matched/|terms|) + 0.3·min(total/(|terms|·5), 1) + min(metaMatched/|terms|, 0.3)`
where `matched` counts distinct terms occurring in the content **or** the
metadata concatenation, `total` sums the combined content+metadata
occurrence counts, and `metaMatched` counts distinct terms with a
metadata occurrence (not total occurrences); the score is `0.0` exactly
when no term occurs in content or metadata. -/
theorem C4_lexical_formula_amended (terms : List String) (r : SearchResult) :
    (keywordScoreFor terms r =
      if terms.countP (fun t => decide (0 < pyCount (pyLower r.content) t + metaCount r.meta t))
          = 0 then 0
      else
        (1 / 2) * ((terms.countP
              (fun t => decide (0 < pyCount (pyLower r.content) t + metaCount r.meta t)) : ℚ)
            / (terms.length : ℚ))
          + (3 / 10) * min (((terms.map
                (fun t => pyCount (pyLower r.content) t + metaCount r.meta t)).sum : ℚ)
              / ((terms.length : ℚ) * 5)) 1
          + min ((terms.countP (fun t => decide (0 < metaCount r.meta t)) : ℚ)
              / (terms.length : ℚ)) (3 / 10))
    ∧ (keywordScoreFor terms r = 0 ↔
        terms.countP (fun t => decide (0 < pyCount (pyLower r.content) t + metaCount r.meta t))
          = 0) := by
  constructor
  · unfold keywordScoreFor
    rw [scoreCounts_fst_eq, scoreCounts_snd_eq, scoreCounts_meta_eq]
    by_cases h : terms.countP
        (fun t => decide (0 < pyCount (pyLower r.content) t + metaCount r.meta t)) = 0
    · rw [if_neg (by omega), if_pos h]
    · rw [if_pos (by omega), if_neg h]
  · constructor
    · intro h0
      by_contra hne
      have hpos : 0 < (scoreCounts terms r).1 := by
        rw [scoreCounts_fst_eq]; omega
      have := keywordScoreFor_pos terms r hpos
      rw [h0] at this
      exact lt_irrefl 0 this
    · intro h0
      unfold keywordScoreFor
      rw [if_neg (by rw [scoreCounts_fst_eq]; omega)]

/-- C4 counterexample: query term `hello` against a candidate with empty
content and file name `hello.txt`: the code scores `43/50` (the term
matches through the metadata), while the formula of the claim (content
matches only) yields `0`. -/
theorem C4_lexical_formula_counterexample :
    keywordSearch "hello" [rC4] = [43 / 50]
    ∧ claimLexicalScore (expandedTerms "hello" [rC4]) rC4 = 0
    ∧ (43 / 50 : ℚ) ≠ 0 := by
  refine ⟨?_, rfl, by norm_num⟩
  have hred : keywordSearch "hello" [rC4] = [keywordScoreFor ["hello"] rC4] := rfl
  rw [hred]
  have hsc : scoreCounts ["hello"] rC4 = (1, 1, 1) := by decide
  unfold keywordScoreFor
  rw [hsc]
  norm_num [min_def]

/-- C5 (amended): an empty token set gives every candidate lexical score
`0` with no scan performed; a candidate with empty content scores `0`
provided its metadata (file name and url) contains no occurrence of any
expanded term — a metadata-only match still scores positively. -/
theorem C5_empty_cases_amended (q : String) (pool : List SearchResult) (r : SearchResult) :
    (tokensOf q = [] → keywordSearch q pool = pool.map (fun _ => 0))
    ∧ (r.content = "" → (∀ t ∈ expandedTerms q pool, metaCount r.meta t = 0) →
        keywordScoreFor (expandedTerms q pool) r = 0) := by
  constructor
  · intro htok
    simp [keywordSearch, htok]
  · intro hc hm
    unfold keywordScoreFor
    rw [scoreCounts_zero r hc _ expandedTerms_ne_empty hm]
    norm_num

/-- Witness for C5: the one-letter query tokenizes to nothing and scores
zero; the empty-content, empty-metadata candidate scores zero. -/
theorem C5_empty_cases_witness :
    tokensOf "a" = []
    ∧ keywordSearch "a" [rAB] = [rAB].map (fun _ => 0)
    ∧ rEmpty.content = ""
    ∧ keywordScoreFor (expandedTerms "xy" [rAB]) rEmpty = 0 := by
  refine ⟨by decide, (C5_empty_cases_amended "a" [rAB] rEmpty).1 (by decide), rfl,
    (C5_empty_cases_amended "xy" [rAB] rEmpty).2 rfl ?_⟩
  intro t ht
  have hterms : expandedTerms "xy" [rAB] = ["xy"] := rfl
  rw [hterms] at ht
  rcases List.mem_singleton.mp ht with rfl
  decide

/-- C5 counterexample: a candidate with empty content but file name
`world.md` scores `43/50 ≠ 0` on query `world`, refuting `empty content
implies score 0 regardless of metadata`. -/
theorem C5_empty_cases_counterexample :
    rC5.content = ""
    ∧ keywordSearch "world" [rC5] = [43 / 50]
    ∧ (43 / 50 : ℚ) ≠ 0 := by
  refine ⟨rfl, ?_, by norm_num⟩
  have hred : keywordSearch "world" [rC5] = [keywordScoreFor ["world"] rC5] := rfl
  rw [hred]
  have hsc : scoreCounts ["world"] rC5 = (1, 1, 1) := by decide
  unfold keywordScoreFor
  rw [hsc]
  norm_num [min_def]

/-- C6 (amended): for a candidate with site context the boost is exactly
`0.15`, replaced by exactly `0.25` when `"site"` or `"this"` occurs as a
**substring** of the lower-cased query (not as a whitespace token); the
two are never added. -/
theorem C6_context_boost_amended (q : String) (m : ChunkMeta) (h : hasSiteContext m = true) :
    (siteContextBoost (isSiteQuery q) m = 3 / 20 ∨ siteContextBoost (isSiteQuery q) m = 1 / 4)
    ∧ (siteContextBoost (isSiteQuery q) m = 1 / 4 ↔
        (containsSub (pyLower q) "site" = true ∨ containsSub (pyLower q) "this" = true))
    ∧ siteContextBoost (isSiteQuery q) m ≠ 3 / 20 + 1 / 4 := by
  cases hsite : isSiteQuery q with
  | false =>
      have hor : ¬ (containsSub (pyLower q) "site" = true
          ∨ containsSub (pyLower q) "this" = true) := by
        unfold isSiteQuery at hsite
        rcases Bool.or_eq_false_iff.mp hsite with ⟨h1, h2⟩
        simp [h1, h2]
      have hb : siteContextBoost false m = 3 / 20 := by
        unfold siteContextBoost
        rw [if_pos h]
        rfl
      rw [hb]
      refine ⟨Or.inl rfl, ⟨fun he => absurd ?_ hor, fun he => absurd he hor⟩, by norm_num⟩
      exact absurd he (by norm_num)
  | true =>
      have hor : containsSub (pyLower q) "site" = true ∨ containsSub (pyLower q) "this" = true := by
        unfold isSiteQuery at hsite
        exact Bool.or_eq_true_iff.mp hsite
      have hb : siteContextBoost true m = 1 / 4 := by
        unfold siteContextBoost
        rw [if_pos h]
        rfl
      rw [hb]
      exact ⟨Or.inr rfl, ⟨fun _ => hor, fun _ => rfl⟩, by norm_num⟩

/-- Witness for C6: the query `this site` and url-carrying metadata get
the elevated boost `0.25`. -/
theorem C6_context_boost_witness :
    hasSiteContext mUrl = true
    ∧ siteContextBoost (isSiteQuery "this site") mUrl = 1 / 4 :=
  ⟨rfl, ((C6_context_boost_amended "this site" mUrl rfl).2.1).mpr (Or.inl rfl)⟩

/-- C6 counterexample: the query `thistle` contains neither the token
`site` nor the token `this`, yet the boost is `0.25` instead of the
claimed `0.15`, because the code tests substring containment and
`thistle` contains `this`. -/
theorem C6_context_boost_counterexample :
    "site" ∉ pySplitWs (pyLower "thistle")
    ∧ "this" ∉ pySplitWs (pyLower "thistle")
    ∧ "site" ∉ tokensOf "thistle"
    ∧ "this" ∉ tokensOf "thistle"
    ∧ hasSiteContext mUrl = true
    ∧ siteContextBoost (isSiteQuery "thistle") mUrl = 1 / 4
    ∧ (1 / 4 : ℚ) ≠ 3 / 20 :=
  ⟨by decide, by decide, by decide, by decide, rfl, rfl, by norm_num⟩

/-- C7 (amended): per-candidate lexical scoring is independent of the
other candidates **whenever the lowered query does not contain `"pdf"`**:
the expanded term set then never reads the pool, so a candidate at the
same position receives the same score in any two pools. (With `"pdf"`
present, term expansion harvests pdf names from other candidates and the
independence fails.) -/
theorem C7_lexical_independence_amended (q : String)
    (hp : containsSub (queryLower q) "pdf" = false)
    (pool pool' : List SearchResult) (i : Nat) (r : SearchResult)
    (h1 : pool[i]? = some r) (h2 : pool'[i]? = some r) :
    (keywordSearch q pool)[i]? = (keywordSearch q pool')[i]? := by
  have hi : i < pool.length := (List.getElem?_eq_some.mp h1).1
  have hi' : i < pool'.length := (List.getElem?_eq_some.mp h2).1
  unfold keywordSearch
  by_cases hq : queryLower q = ""
  · simp [hq, hi, hi']
  · by_cases ht : tokensOf q = []
    · simp [hq, ht, hi, hi']
    · simp only [if_neg hq, if_neg ht]
      rw [expandedTerms_eq_of_no_pdf hp pool, expandedTerms_eq_of_no_pdf hp pool']
      simp [List.getElem?_map, h1, h2]

/-- Witness for C7: the query `ab` scores candidate `rAB` identically in
two pools that agree only at position 0. -/
theorem C7_lexical_independence_witness :
    containsSub (queryLower "ab") "pdf" = false
    ∧ (keywordSearch "ab" [rAB, rB1])[0]? = (keywordSearch "ab" [rAB, rB2])[0]? :=
  ⟨rfl, C7_lexical_independence_amended "ab" rfl [rAB, rB1] [rAB, rB2] 0 rAB rfl rfl⟩

/-- C7 counterexample: on query `pdf`, the candidate `rA7` (content
`abcd things`) scores `0` next to a pdf-free bystander but `7/25` next to
a bystander containing `abcd.pdf` — another candidate changed its score. -/
theorem C7_lexical_independence_counterexample :
    [rA7, rB1][0]? = some rA7
    ∧ [rA7, rB2][0]? = some rA7
    ∧ (keywordSearch "pdf" [rA7, rB1])[0]? ≠ (keywordSearch "pdf" [rA7, rB2])[0]? := by
  refine ⟨rfl, rfl, ?_⟩
  have e1 : (keywordSearch "pdf" [rA7, rB1])[0]? = some (keywordScoreFor ["pdf"] rA7) := rfl
  have e2 : (keywordSearch "pdf" [rA7, rB2])[0]?
      = some (keywordScoreFor ["pdf", "abcd"] rA7) := rfl
  rw [e1, e2]
  have v1 : keywordScoreFor ["pdf"] rA7 = 0 := by
    unfold keywordScoreFor
    rw [(by decide : scoreCounts ["pdf"] rA7 = (0, 0, 0))]
    norm_num
  have v2 : keywordScoreFor ["pdf", "abcd"] rA7 = 7 / 25 := by
    unfold keywordScoreFor
    rw [(by decide : scoreCounts ["pdf", "abcd"] rA7 = (1, 1, 0))]
    norm_num [min_def]
  rw [v1, v2]
  simp only [Ne, Option.some.injEq]
  norm_num

/-- C8: every search call requests exactly `topK * 2` nearest neighbours
from the vector index (the result depends on the store only through that
one request) and returns at most `topK` results. -/
theorem C8_overfetch_topk (cfg : HybridSearchConfig)
    (store store' : String → Nat → List SearchResult) (q : String) :
    (store q (cfg.top_k * 2) = store' q (cfg.top_k * 2) →
      search cfg store q = search cfg store' q)
    ∧ (search cfg store q).length ≤ cfg.top_k := by
  constructor
  · intro h
    unfold search
    rw [h]
  · unfold search
    rw [List.length_take]
    exact Nat.min_le_left _ _

/-- Witness for C8: two different store oracles agreeing on the single
request `("ab", 10)` give identical results, of length at most 5. -/
theorem C8_overfetch_topk_witness :
    search cfgEx storeAB "ab" = search cfgEx storeAB2 "ab"
    ∧ (search cfgEx storeAB "ab").length ≤ cfgEx.top_k :=
  ⟨(C8_overfetch_topk cfgEx storeAB storeAB2 "ab").1 rfl,
   (C8_overfetch_topk cfgEx storeAB storeAB2 "ab").2⟩

/-- C9: both the fusion stage and the rerank stage sort stably in
descending `combined_score` order: the output is pairwise descending,
and restricted to any fixed score value the output equals the pre-sort
sequence (ties keep the prior-stage order). -/
theorem C9_stable_descending_sort (cfg : HybridSearchConfig) (pool : List SearchResult)
    (kws : List ℚ) (q : String) (results : List SearchResult) (c : ℚ) :
    (combineResults cfg pool kws).Pairwise (fun a b => combinedKey b ≤ combinedKey a)
    ∧ (combineResults cfg pool kws).filter (fun r => decide (combinedKey r = c))
        = (assignCombined cfg pool kws).filter (fun r => decide (combinedKey r = c))
    ∧ (rerank q results).Pairwise (fun a b => combinedKey b ≤ combinedKey a)
    ∧ (rerank q results).filter (fun r => decide (combinedKey r = c))
        = (applyBoosts q results).filter (fun r => decide (combinedKey r = c)) :=
  ⟨sortDesc_sorted _, filter_sortDesc c _, sortDesc_sorted _, filter_sortDesc c _⟩

/-- C10 (amended): term expansion fires exactly when `"pdf"` or
`"sample"` occurs as a substring of the lowered query; it only ever adds
terms (the original tokens all remain); every added term is one of the
fixed terms `sample`, `sample-3pp`, `pdf` or a pdf file-name stem (the
matched name with `.pdf` removed) harvested from some retrieved
candidate, at most 3 stems per candidate. -/
theorem C10_term_expansion_amended (q : String) (pool : List SearchResult) :
    (∀ t ∈ tokensOf q, t ∈ expandedTerms q pool)
    ∧ (containsSub (queryLower q) "pdf" = false → containsSub (queryLower q) "sample" = false →
        expandedTerms q pool = setOfList (tokensOf q))
    ∧ (∀ t ∈ expandedTerms q pool,
        t ∈ tokensOf q ∨ t = "sample" ∨ t = "sample-3pp" ∨ t = "pdf"
          ∨ ∃ r ∈ pool, t ∈ pdfStemsOf r)
    ∧ (∀ r : SearchResult, (pdfStemsOf r).length ≤ 3)
    ∧ (expandedTerms q pool).length ≤ (setOfList (tokensOf q)).length + 3 + 3 * pool.length := by
  refine ⟨tokens_mem_expandedTerms pool, ?_, expandedTerms_provenance,
    fun r => pdfStemsOf_length r, expandedTerms_length q pool⟩
  intro hp hs
  rw [expandedTerms_eq_of_no_pdf hp pool]
  simp [hs]

/-- Witness for C10: the query `hello world` triggers no expansion and
keeps its tokens. -/
theorem C10_term_expansion_witness :
    containsSub (queryLower "hello world") "pdf" = false
    ∧ containsSub (queryLower "hello world") "sample" = false
    ∧ expandedTerms "hello world" [rHello] = setOfList (tokensOf "hello world")
    ∧ "hello" ∈ expandedTerms "hello world" [rHello] :=
  ⟨rfl, rfl, (C10_term_expansion_amended "hello world" [rHello]).2.1 rfl rfl,
   (C10_term_expansion_amended "hello world" [rHello]).1 "hello" (by decide)⟩

/-- C10 counterexample: on query `sample xy` the fixed term `sample-3pp`
is added although it is not a substring of any retrieved content (so it
is not a filename-shaped substring found in a candidate); and the query
`pdfs ab` triggers expansion although `pdf` is not one of its tokens. -/
theorem C10_term_expansion_counterexample :
    "sample-3pp" ∈ expandedTerms "sample xy" [rHello]
    ∧ "sample-3pp" ∉ tokensOf "sample xy"
    ∧ containsSub (pyLower rHello.content) "sample-3pp" = false
    ∧ "pdf" ∉ tokensOf "pdfs ab"
    ∧ "pdf" ∈ expandedTerms "pdfs ab" [rHello] := by decide

end HybridRAG
